import Mathlib

/-!
Verification of the incremental Merkle accumulator from `src/merkle.rs` and
its helper functions from `src/helpers.rs`.

The compression primitive (`Poseidon::hash`) and the field-element type
(`Felt`) are external collaborators of the repository: every definition below
is parameterised by an abstract carrier type `F`, a compression function
`hash : F → F → F` and the base constant `base` (the `Felt` decoded from the
fixed 32-byte array in `precomputed_hashes`).  Rust `Vec` indexing is modelled
with `List.getD`; all indexing performed by the verified operations is shown
to stay in bounds, so the default value is never consulted.
-/

set_option linter.unnecessarySimpa false
set_option linter.unusedSectionVars false

namespace NoirMerkle

/-! ### Embedding of `src/helpers.rs` -/

section Embedding

variable {F : Type} [Inhabited F]

/-- The loop body of `precomputed_hashes`: starting from `current`, push
`hash(current, current)` for each remaining iteration. -/
def zeroChainFrom (hash : F → F → F) : F → Nat → List F
  | _, 0 => []
  | c, n + 1 => hash c c :: zeroChainFrom hash (hash c c) n

/-- `precomputed_hashes` from `src/helpers.rs`: pushes the decoded base
constant, then `height - 1` times replaces the current value by
`Poseidon::hash(current, current)` and pushes it. -/
def precomputed_hashes (hash : F → F → F) (base : F) (height : Nat) : List F :=
  base :: zeroChainFrom hash base (height - 1)

/-- `compute_merkle_root_rust` from `src/helpers.rs`, the Rust loop written as
tail recursion over the sibling path: at each step combine `current` with the
sibling in the order dictated by the parity of `index`, then halve `index`. -/
def compute_merkle_root_rust (hash : F → F → F) (leaf : F) (index : Nat)
    (hash_path : List F) : F :=
  match hash_path with
  | [] => leaf
  | sibling :: rest =>
      compute_merkle_root_rust hash
        (if index % 2 = 1 then hash sibling leaf else hash leaf sibling)
        (index / 2) rest

/-! ### Embedding of `src/merkle.rs` -/

/-- The state of `HybridMerkleTree` (`src/merkle.rs`). -/
structure HybridMerkleTree (F : Type) where
  height : Nat
  precomputed : List F
  left_path : List F
  layers : List (List F)
  free_index : Nat

/-- `HybridMerkleTree::new`. -/
def HybridMerkleTree.new (hash : F → F → F) (base : F) (height : Nat) :
    HybridMerkleTree F :=
  let precomputed := precomputed_hashes hash base height
  { height := height
    precomputed := precomputed
    left_path := precomputed
    layers := List.replicate height []
    free_index := 0 }

/-- The loop-carried state of `add_leaf`: the running hash, the (already
halved) node index, and the two mutable vectors the loop writes to. -/
structure AddState (F : Type) where
  hash_val : F
  index : Nat
  left_path : List F
  layers : List (List F)

/-- One iteration (level `i`, for `i` in `1..height`) of the `add_leaf`
loop, transcribed from `src/merkle.rs` lines 42-58. -/
def addStep (hash : F → F → F) (pre : List F) (st : AddState F) (i : Nat) :
    AddState F :=
  let st1 : AddState F :=
    if st.index % 2 = 0 then
      { st with
        hash_val := hash st.hash_val (pre.getD (i - 1) default)
        left_path := st.left_path.set (i - 1) st.hash_val }
    else
      { st with hash_val := hash (st.left_path.getD (i - 1) default) st.hash_val }
  let index := st1.index / 2
  let lyi := st1.layers.getD i []
  let lyi' :=
    if index < lyi.length then lyi.set index st1.hash_val
    else lyi ++ [st1.hash_val]
  { st1 with index := index, layers := st1.layers.set i lyi' }

/-- `HybridMerkleTree::add_leaf`.  Note that the source performs no capacity
check: it unconditionally pushes the leaf, runs the per-level loop, and
increments `free_index`. -/
def HybridMerkleTree.add_leaf (t : HybridMerkleTree F) (hash : F → F → F)
    (leaf : F) : HybridMerkleTree F :=
  let layers0 := t.layers.set 0 ((t.layers.getD 0 []) ++ [leaf])
  let st0 : AddState F :=
    { hash_val := leaf, index := t.free_index, left_path := t.left_path
      layers := layers0 }
  let stF := (List.range' 1 (t.height - 1)).foldl (addStep hash t.precomputed) st0
  { t with
    free_index := t.free_index + 1
    layers := stF.layers
    left_path := stF.left_path.set (t.height - 1) stF.hash_val }

/-- `HybridMerkleTree::root`: reads `left_path[height - 1]`. -/
def HybridMerkleTree.root (t : HybridMerkleTree F) : F :=
  t.left_path.getD (t.height - 1) default

/-- Outcome of a Rust function that may `panic!`: either a value or an
aborted execution carrying the panic message. -/
inductive RustOutcome (α : Type) where
  | panicked : String → RustOutcome α
  | ok : α → RustOutcome α
deriving DecidableEq

/-- One iteration (level `i`, for `i` in `0..height-1`) of the `path` loop,
transcribed from `src/merkle.rs` lines 76-92.  The state is
`(elements, indices, index)`. -/
def pathStep (pre : List F) (layers : List (List F))
    (st : List F × List Bool × Nat) (i : Nat) : List F × List Bool × Nat :=
  let elements := st.1
  let indices := st.2.1
  let index := st.2.2
  let is_right := index % 2 = 1
  let sibling :=
    if is_right then (layers.getD i []).getD (index - 1) default
    else if index + 1 < (layers.getD i []).length then
      (layers.getD i []).getD (index + 1) default
    else pre.getD i default
  (elements ++ [sibling], indices ++ [decide is_right], index / 2)

/-- `HybridMerkleTree::path`.  The source `panic!`s ("Leaf does not exist!")
when the index is not below `layers[0].len()`; otherwise it collects one
sibling and one side bit per level below the root. -/
def HybridMerkleTree.path (t : HybridMerkleTree F) (index : Nat) :
    RustOutcome (List F × List Bool) :=
  if (t.layers.getD 0 []).length ≤ index then
    RustOutcome.panicked "Leaf does not exist!"
  else
    let res := (List.range (t.height - 1)).foldl (pathStep t.precomputed t.layers)
      ([], [], index)
    RustOutcome.ok (res.1, res.2.1)

/-- Folding `add_leaf` over a list of leaves, in order. -/
def addAll (hash : F → F → F) (t : HybridMerkleTree F) (L : List F) :
    HybridMerkleTree F :=
  L.foldl (fun s l => s.add_leaf hash l) t

end Embedding

/-! ### Specification-side definitions -/

section SpecSide

variable {F : Type} [Inhabited F]

/-- The mathematical zero-hash chain: `zeroIter 0 = base`,
`zeroIter (i+1) = hash (zeroIter i) (zeroIter i)`. -/
def zeroIter (hash : F → F → F) (base : F) : Nat → F
  | 0 => base
  | i + 1 => hash (zeroIter hash base i) (zeroIter hash base i)

/-- Value of leaf slot `j` when the leaves `L` are padded with the base
constant: `L[j]` when present, `base` otherwise. -/
def slot (L : List F) (base : F) (j : Nat) : F :=
  if j < L.length then L.getD j default else base

/-- Root of the full binary subtree of height `i` whose leaf slots are
`[p * 2^i, (p+1) * 2^i)`, over the padded leaf sequence. -/
def subRoot (hash : F → F → F) (base : F) (L : List F) : Nat → Nat → F
  | 0, p => slot L base p
  | i + 1, p =>
      hash (subRoot hash base L i (2 * p)) (subRoot hash base L i (2 * p + 1))

/-- One reduction level of the independent full-tree construction: hash
adjacent pairs. -/
def levelUp (hash : F → F → F) : List F → List F
  | a :: b :: rest => hash a b :: levelUp hash rest
  | _ => []

/-- Iterate `levelUp` a given number of times. -/
def reduceLevels (hash : F → F → F) : Nat → List F → List F
  | 0, l => l
  | k + 1, l => reduceLevels hash k (levelUp hash l)

/-- The independent full binary-tree construction of the spec: pad the leaves
with the base constant (`zero[0]`) up to `2^(height-1)` slots, then reduce
level by level with the compression function and read the single remaining
node. -/
def specFullRoot (hash : F → F → F) (base : F) (height : Nat) (L : List F) : F :=
  let padded := L ++ List.replicate (2 ^ (height - 1) - L.length) base
  (reduceLevels hash (height - 1) padded).headD default

/-- The verifier fold exactly as the spec words it: starting from
`current := leaf`, for each sibling in order combine according to the parity
of `index`, then halve `index`; return the final `current`. -/
def spec_compute_root (hash : F → F → F) (leaf : F) (index : Nat)
    (path : List F) : F :=
  (path.foldl
    (fun st sibling =>
      (if st.2 % 2 = 1 then hash sibling st.1 else hash st.1 sibling, st.2 / 2))
    (leaf, index)).1

/-- The sibling returned by `path` at level `j` for original leaf index
`i0`: the neighbour subtree root, which is the zero-chain value whenever the
neighbour subtree holds no inserted leaf. -/
def pathSib (hash : F → F → F) (base : F) (L : List F) (i0 j : Nat) : F :=
  if i0 / 2 ^ j % 2 = 1 then subRoot hash base L j (i0 / 2 ^ j - 1)
  else subRoot hash base L j (i0 / 2 ^ j + 1)

end SpecSide

/-! ### A concrete instantiation used for closed evaluations -/

/-- A small concrete stand-in for the compression primitive, used only to
evaluate the embedded code at concrete inputs. -/
def testHash (a b : Nat) : Nat := 2 * a + 3 * b + 5

/-- A concrete stand-in for the decoded base constant. -/
def testBase : Nat := 7

/-! ### The `add_leaf` loop invariant -/

/-- Invariant holding at the start of iteration `i` (for `i` in
`1..height+1`) of the `add_leaf` loop, when the accumulator previously held
the leaves `L` and the leaf `v` is being inserted.  Levels below `i` have
been brought up to date with respect to `L ++ [v]`; levels from `i` upward
still describe `L` alone. -/
structure LoopInv {F : Type} [Inhabited F] (hash : F → F → F) (base : F)
    (height : Nat) (L : List F) (v : F) (i : Nat) (st : AddState F) : Prop where
  hidx : st.index = L.length / 2 ^ (i - 1)
  hhv : st.hash_val = subRoot hash base (L ++ [v]) (i - 1) (L.length / 2 ^ (i - 1))
  hlp_len : st.left_path.length = height
  hlp_new : ∀ j, j + 1 < i →
    st.left_path.getD j default = subRoot hash base (L ++ [v]) j (2 * (L.length / 2 ^ (j + 1)))
  hlp_old : ∀ j, i ≤ j + 1 → j + 1 < height →
    st.left_path.getD j default = subRoot hash base L j (2 * ((L.length - 1) / 2 ^ (j + 1)))
  hlp_top : st.left_path.getD (height - 1) default = subRoot hash base L (height - 1) 0
  hly_len : st.layers.length = height
  hly_new : ∀ j, j < i → j < height →
    (st.layers.getD j []).length = (L.length + 2 ^ j) / 2 ^ j ∧
    ∀ p, p < (L.length + 2 ^ j) / 2 ^ j →
      (st.layers.getD j []).getD p default = subRoot hash base (L ++ [v]) j p
  hly_old : ∀ j, i ≤ j → j < height →
    (st.layers.getD j []).length = (L.length + 2 ^ j - 1) / 2 ^ j ∧
    ∀ p, p < (L.length + 2 ^ j - 1) / 2 ^ j →
      (st.layers.getD j []).getD p default = subRoot hash base L j p

/-! ### The accumulator state invariant -/

/-- Characterisation of the accumulator state reached by inserting the leaves
`L` in order into a freshly constructed tree of depth `height`:
`layers[i]` holds the materialised level-`i` subtree roots, `left_path`
caches the waiting left siblings, and `left_path[height-1]` is the root. -/
structure Inv {F : Type} [Inhabited F] (hash : F → F → F) (base : F)
    (height : Nat) (L : List F) (t : HybridMerkleTree F) : Prop where
  hheight : t.height = height
  hpre : t.precomputed = precomputed_hashes hash base height
  hfree : t.free_index = L.length
  hlayers_len : t.layers.length = height
  hlayer_len : ∀ i, i < height →
    (t.layers.getD i []).length = (L.length + 2 ^ i - 1) / 2 ^ i
  hlayer_val : ∀ i, i < height → ∀ p, p < (L.length + 2 ^ i - 1) / 2 ^ i →
    (t.layers.getD i []).getD p default = subRoot hash base L i p
  hlp_len : t.left_path.length = height
  hlp_val : ∀ j, j + 1 < height →
    t.left_path.getD j default =
      subRoot hash base L j (2 * ((L.length - 1) / 2 ^ (j + 1)))
  hroot : t.left_path.getD (height - 1) default =
    subRoot hash base L (height - 1) 0

/-! ### Generic list access lemmas -/

theorem getD_set_self {α : Type} (l : List α) (i : Nat) (a d : α)
    (h : i < l.length) : (l.set i a).getD i d = a := by
  induction l generalizing i with
  | nil => simp at h
  | cons x xs ih =>
      cases i with
      | zero => simp [List.getD]
      | succ j => simpa [List.getD] using ih j (by simp at h; omega)

theorem getD_set_ne {α : Type} (l : List α) (i j : Nat) (a d : α)
    (h : i ≠ j) : (l.set i a).getD j d = l.getD j d := by
  induction l generalizing i j with
  | nil => simp
  | cons x xs ih =>
      cases i with
      | zero =>
          cases j with
          | zero => exact absurd rfl h
          | succ j' => simp [List.getD]
      | succ i' =>
          cases j with
          | zero => simp [List.getD]
          | succ j' =>
              simpa [List.getD] using ih i' j' (fun hc => h (by omega))

theorem getD_append_lt {α : Type} (l m : List α) (i : Nat) (d : α)
    (h : i < l.length) : (l ++ m).getD i d = l.getD i d := by
  induction l generalizing i with
  | nil => simp at h
  | cons x xs ih =>
      cases i with
      | zero => simp [List.getD]
      | succ j => simpa [List.getD] using ih j (by simp at h; omega)

theorem getD_snoc_len {α : Type} (l : List α) (a d : α) :
    (l ++ [a]).getD l.length d = a := by
  induction l with
  | nil => simp [List.getD]
  | cons x xs ih => simpa [List.getD] using ih

theorem getD_replicate_of_lt {α : Type} (n i : Nat) (a d : α) (h : i < n) :
    (List.replicate n a).getD i d = a := by
  induction n generalizing i with
  | zero => omega
  | succ m ih =>
      cases i with
      | zero => simp [List.getD]
      | succ j => simpa [List.replicate, List.getD] using ih j (by omega)

/-! ### The zero-hash chain -/

section ZeroChain

variable {F : Type} [Inhabited F]

theorem zeroChainFrom_length (hash : F → F → F) (c : F) (n : Nat) :
    (zeroChainFrom hash c n).length = n := by
  induction n generalizing c with
  | zero => rfl
  | succ m ih => simp [zeroChainFrom, ih]

theorem precomputed_hashes_length (hash : F → F → F) (base : F) (height : Nat)
    (hh : 1 ≤ height) : (precomputed_hashes hash base height).length = height := by
  simp only [precomputed_hashes, List.length_cons, zeroChainFrom_length]
  omega

theorem zeroChainFrom_getD (hash : F → F → F) (base : F) :
    ∀ (n k j : Nat), j < n →
      (zeroChainFrom hash (zeroIter hash base k) n).getD j default =
        zeroIter hash base (k + j + 1) := by
  intro n
  induction n with
  | zero => intro k j hj; omega
  | succ m ih =>
      intro k j hj
      cases j with
      | zero =>
          show (zeroChainFrom hash (zeroIter hash base k) (m + 1)).getD 0 default = _
          simp [zeroChainFrom, List.getD, zeroIter]
      | succ j' =>
          have step : zeroChainFrom hash (zeroIter hash base k) (m + 1) =
              zeroIter hash base (k + 1) ::
                zeroChainFrom hash (zeroIter hash base (k + 1)) m := rfl
          rw [step]
          have := ih (k + 1) j' (by omega)
          simpa [List.getD, Nat.add_assoc, Nat.add_comm, Nat.add_left_comm] using this

theorem precomputed_hashes_getD (hash : F → F → F) (base : F) (height : Nat)
    (i : Nat) (hi : i < height) :
    (precomputed_hashes hash base height).getD i default = zeroIter hash base i := by
  cases i with
  | zero => rfl
  | succ j =>
      show (zeroChainFrom hash base (height - 1)).getD j default = _
      have hb : zeroChainFrom hash base (height - 1) =
          zeroChainFrom hash (zeroIter hash base 0) (height - 1) := rfl
      rw [hb, zeroChainFrom_getD hash base (height - 1) 0 j (by omega)]
      norm_num

end ZeroChain

/-! ### Claim C6: the zero-hash chain -/

/-- C6: `precomputed_hashes` returns exactly `height` field elements, the
first being the fixed base constant and each later entry the compression of
the previous entry with itself; it is a total (hence deterministic,
failure-free) function. -/
theorem C6_zero_chain {F : Type} [Inhabited F] (hash : F → F → F) (base : F)
    (height : Nat) (hh : 1 ≤ height) :
    (precomputed_hashes hash base height).length = height ∧
    (precomputed_hashes hash base height).getD 0 default = base ∧
    ∀ i, 1 ≤ i → i < height →
      (precomputed_hashes hash base height).getD i default =
        hash ((precomputed_hashes hash base height).getD (i - 1) default)
          ((precomputed_hashes hash base height).getD (i - 1) default) := by
  refine ⟨precomputed_hashes_length hash base height hh, rfl, ?_⟩
  intro i h1 hi
  rw [precomputed_hashes_getD hash base height i hi,
    precomputed_hashes_getD hash base height (i - 1) (by omega)]
  have hsucc : i = (i - 1) + 1 := by omega
  rw [hsucc]
  rfl

/-- Witness for C6 at `height = 3` with the concrete test compression. -/
theorem C6_zero_chain_witness :
    1 ≤ 3 ∧
    ((precomputed_hashes testHash testBase 3).length = 3 ∧
      (precomputed_hashes testHash testBase 3).getD 0 default = testBase ∧
      ∀ i, 1 ≤ i → i < 3 →
        (precomputed_hashes testHash testBase 3).getD i default =
          testHash ((precomputed_hashes testHash testBase 3).getD (i - 1) default)
            ((precomputed_hashes testHash testBase 3).getD (i - 1) default)) :=
  ⟨by decide, C6_zero_chain testHash testBase 3 (by decide)⟩

/-! ### Claim C5: root of the freshly constructed accumulator -/

/-- C5: a freshly constructed accumulator of depth `height ≥ 1` has
`root() = zero[height - 1]`, the top of the zero-hash chain; `root` is a
total function that merely reads `left_path[height - 1]`. -/
theorem C5_empty_root {F : Type} [Inhabited F] (hash : F → F → F) (base : F)
    (height : Nat) (hh : 1 ≤ height) :
    (HybridMerkleTree.new hash base height).root =
      (precomputed_hashes hash base height).getD (height - 1) default ∧
    (HybridMerkleTree.new hash base height).root =
      zeroIter hash base (height - 1) := by
  refine ⟨rfl, ?_⟩
  show (precomputed_hashes hash base height).getD (height - 1) default = _
  exact precomputed_hashes_getD hash base height (height - 1) (by omega)

/-- Witness for C5 at `height = 3` with the concrete test compression. -/
theorem C5_empty_root_witness :
    1 ≤ 3 ∧
    ((HybridMerkleTree.new testHash testBase 3).root =
        (precomputed_hashes testHash testBase 3).getD (3 - 1) default ∧
      (HybridMerkleTree.new testHash testBase 3).root =
        zeroIter testHash testBase (3 - 1)) :=
  ⟨by decide, C5_empty_root testHash testBase 3 (by decide)⟩

/-! ### Claim C8: the verifier fold -/

/-- C8: `compute_merkle_root_rust` computes exactly the fold described by the
spec: starting from the leaf, combine with each sibling in path order with
the operand order dictated by the parity of the running index, halving the
index after each step; it is a total pure function. -/
theorem C8_compute_root_fold {F : Type} [Inhabited F] (hash : F → F → F) :
    ∀ (p : List F) (leaf : F) (index : Nat),
      compute_merkle_root_rust hash leaf index p =
        spec_compute_root hash leaf index p := by
  intro p
  induction p with
  | nil => intro leaf index; rfl
  | cons s rest ih =>
      intro leaf index
      simp only [compute_merkle_root_rust, spec_compute_root, List.foldl_cons]
      exact ih _ _

/-! ### Claim C10: the verifier accepts paths of any length -/

/-- The verifier fold splits over path concatenation: every entry of both
parts is processed, with the index halved once per entry. -/
theorem compute_merkle_root_rust_append {F : Type} [Inhabited F]
    (hash : F → F → F) :
    ∀ (p q : List F) (leaf : F) (index : Nat),
      compute_merkle_root_rust hash leaf index (p ++ q) =
        compute_merkle_root_rust hash
          (compute_merkle_root_rust hash leaf index p)
          (index / 2 ^ p.length) q := by
  intro p
  induction p with
  | nil => intro q leaf index; simp [compute_merkle_root_rust]
  | cons s rest ih =>
      intro q leaf index
      simp only [List.cons_append, compute_merkle_root_rust, List.length_cons,
        List.append_eq]
      rw [ih]
      have hdiv : index / 2 / 2 ^ rest.length = index / 2 ^ (rest.length + 1) := by
        rw [Nat.div_div_eq_div_mul, pow_succ']
      rw [hdiv]

/-- C10: `compute_merkle_root_rust` performs no length check: on the empty
path it returns the leaf unchanged, and on a concatenated path it processes
every entry of both parts in order (no truncation), for every leaf and every
index. -/
theorem C10_compute_root_any_length {F : Type} [Inhabited F] (hash : F → F → F) :
    (∀ (leaf : F) (index : Nat),
      compute_merkle_root_rust hash leaf index [] = leaf) ∧
    (∀ (p q : List F) (leaf : F) (index : Nat),
      compute_merkle_root_rust hash leaf index (p ++ q) =
        compute_merkle_root_rust hash
          (compute_merkle_root_rust hash leaf index p)
          (index / 2 ^ p.length) q) :=
  ⟨fun _ _ => rfl, compute_merkle_root_rust_append hash⟩

/-! ### Division facts used by the invariant proofs -/

theorem lt_div_succ_mul (n m : Nat) (hm : 0 < m) : n < (n / m + 1) * m := by
  have h1 := Nat.div_add_mod n m
  have h2 : n % m < m := Nat.mod_lt n hm
  have h3 : (n / m + 1) * m = m * (n / m) + m := by ring
  linarith

theorem pred_div_eq_of_mod (n m : Nat) (hm : 0 < m) (hmod : n % m ≠ 0) :
    (n - 1) / m = n / m := by
  have h1 := Nat.div_add_mod n m
  have h2 : n % m < m := Nat.mod_lt n hm
  have hm1 : 1 ≤ n % m := Nat.one_le_iff_ne_zero.mpr hmod
  have h3 : n - 1 = m * (n / m) + (n % m - 1) := by
    have ha := Nat.add_sub_assoc hm1 (m * (n / m))
    rw [h1] at ha
    exact ha
  have h4 : n % m - 1 < m := lt_of_le_of_lt (Nat.sub_le _ _) h2
  rw [h3, Nat.mul_add_div hm, Nat.div_eq_of_lt h4]
  rfl

theorem ceil_div_succ (n m : Nat) (hm : 0 < m) (hn : 1 ≤ n) :
    (n + m - 1) / m = (n - 1) / m + 1 := by
  have h : n + m - 1 = (n - 1) + m := by omega
  rw [h, Nat.add_div_right _ hm]

theorem ceil_le_div_succ (n m : Nat) (hm : 0 < m) :
    (n + m - 1) / m ≤ n / m + 1 := by
  have h1 : n + m - 1 ≤ n + m := by omega
  calc (n + m - 1) / m ≤ (n + m) / m := Nat.div_le_div_right h1
  _ = n / m + 1 := Nat.add_div_right _ hm

theorem div_le_ceil (n m : Nat) (hm : 0 < m) : n / m ≤ (n + m - 1) / m :=
  Nat.div_le_div_right (by omega)

theorem div_pow_succ (n j : Nat) : n / 2 ^ j / 2 = n / 2 ^ (j + 1) := by
  rw [Nat.div_div_eq_div_mul, pow_succ]

theorem mod_pow_succ_ne_zero_of_div_odd (n j : Nat)
    (hq : n / 2 ^ j % 2 = 1) : n % 2 ^ (j + 1) ≠ 0 := by
  intro h0
  obtain ⟨c, hc⟩ := Nat.dvd_of_mod_eq_zero h0
  have hdiv : n / 2 ^ j = 2 * c := by
    rw [hc, pow_succ, mul_assoc, Nat.mul_div_cancel_left _ (pow_pos (by norm_num) j)]
  omega

/-! ### Facts about `subRoot` -/

section SubRoot

variable {F : Type} [Inhabited F]

/-- A subtree lying entirely beyond the inserted leaves reduces to the
zero-hash chain value at its level. -/
theorem subRoot_of_le (hash : F → F → F) (base : F) (L : List F) :
    ∀ (i p : Nat), L.length ≤ p * 2 ^ i →
      subRoot hash base L i p = zeroIter hash base i := by
  intro i
  induction i with
  | zero =>
      intro p hp
      simp only [pow_zero, mul_one] at hp
      show slot L base p = base
      unfold slot
      rw [if_neg (by omega)]
  | succ m ih =>
      intro p hp
      have hp1 : L.length ≤ 2 * p * 2 ^ m := by
        calc L.length ≤ p * 2 ^ (m + 1) := hp
        _ = 2 * p * 2 ^ m := by ring
      have hp2 : L.length ≤ (2 * p + 1) * 2 ^ m :=
        le_trans hp1 (Nat.mul_le_mul_right _ (by omega))
      show hash (subRoot hash base L m (2 * p)) (subRoot hash base L m (2 * p + 1)) = _
      rw [ih (2 * p) hp1, ih (2 * p + 1) hp2]
      rfl

/-- A subtree lying entirely inside the inserted leaves is unchanged by
appending further leaves. -/
theorem subRoot_append (hash : F → F → F) (base : F) (L M : List F) :
    ∀ (i p : Nat), (p + 1) * 2 ^ i ≤ L.length →
      subRoot hash base (L ++ M) i p = subRoot hash base L i p := by
  intro i
  induction i with
  | zero =>
      intro p hp
      simp only [pow_zero, mul_one] at hp
      show slot (L ++ M) base p = slot L base p
      unfold slot
      rw [if_pos (show p < (L ++ M).length by
            simp only [List.length_append]; omega),
        if_pos (show p < L.length by omega)]
      exact getD_append_lt L M p default (by omega)
  | succ m ih =>
      intro p hp
      have he : (2 * p + 2) * 2 ^ m = (p + 1) * 2 ^ (m + 1) := by ring
      have hp1 : (2 * p + 1) * 2 ^ m ≤ L.length := by
        refine le_trans ?_ (he ▸ hp)
        exact Nat.mul_le_mul_right _ (by omega)
      have hp2 : (2 * p + 1 + 1) * 2 ^ m ≤ L.length := by
        have : (2 * p + 1 + 1) * 2 ^ m = (2 * p + 2) * 2 ^ m := by ring
        rw [this, he]
        exact hp
      show hash (subRoot hash base (L ++ M) m (2 * p))
          (subRoot hash base (L ++ M) m (2 * p + 1)) = _
      rw [ih (2 * p) hp1, ih (2 * p + 1) hp2]
      rfl

/-- Slot value of an inserted leaf. -/
theorem subRoot_zero_getD (hash : F → F → F) (base : F) (L : List F) (p : Nat)
    (hp : p < L.length) :
    subRoot hash base L 0 p = L.getD p default := by
  show slot L base p = _
  unfold slot
  rw [if_pos hp]

end SubRoot

/-! ### A generic invariant lemma for `List.foldl` over `List.range'` -/

theorem foldl_range'_inv {S : Type} (step : S → Nat → S) (P : Nat → S → Prop) :
    ∀ (k a : Nat) (s : S),
      P a s →
      (∀ j u, a ≤ j → j < a + k → P j u → P (j + 1) (step u j)) →
      P (a + k) ((List.range' a k).foldl step s) := by
  intro k
  induction k with
  | zero => intro a s hs _; simpa using hs
  | succ m ih =>
      intro a s hs hstep
      have hr : List.range' a (m + 1) = a :: List.range' (a + 1) m := rfl
      rw [hr, List.foldl_cons]
      have h1 : P (a + 1) (step s a) := hstep a s (Nat.le_refl a) (by omega) hs
      have h2 := ih (a + 1) (step s a) h1
        (fun j u hj1 hj2 hp => hstep j u (by omega) (by omega) hp)
      have he : a + (m + 1) = a + 1 + m := by omega
      rw [he]
      exact h2

/-- Writing the freshly combined node of level `m` (overwrite a stale slot if
present, append otherwise) turns a layer describing the leaves `L` into the
layer describing `L ++ [v]`. -/
theorem updateLayer_spec {F : Type} [Inhabited F] (hash : F → F → F) (base : F)
    (L : List F) (v : F) (m : Nat) (ly : List F)
    (hlen : ly.length = (L.length + 2 ^ m - 1) / 2 ^ m)
    (hval : ∀ p, p < ly.length → ly.getD p default = subRoot hash base L m p) :
    ((if L.length / 2 ^ m < ly.length
        then ly.set (L.length / 2 ^ m)
          (subRoot hash base (L ++ [v]) m (L.length / 2 ^ m))
        else ly ++ [subRoot hash base (L ++ [v]) m (L.length / 2 ^ m)]).length =
      (L.length + 2 ^ m) / 2 ^ m) ∧
    ∀ p, p < (L.length + 2 ^ m) / 2 ^ m →
      (if L.length / 2 ^ m < ly.length
        then ly.set (L.length / 2 ^ m)
          (subRoot hash base (L ++ [v]) m (L.length / 2 ^ m))
        else ly ++ [subRoot hash base (L ++ [v]) m (L.length / 2 ^ m)]).getD
          p default = subRoot hash base (L ++ [v]) m p := by
  have h2m : (0 : Nat) < 2 ^ m := pow_pos (by norm_num) m
  have hub : ly.length ≤ L.length / 2 ^ m + 1 := hlen ▸ ceil_le_div_succ _ _ h2m
  have hlb : L.length / 2 ^ m ≤ ly.length := hlen ▸ div_le_ceil _ _ h2m
  have hceil : (L.length + 2 ^ m) / 2 ^ m = L.length / 2 ^ m + 1 :=
    Nat.add_div_right _ h2m
  have hstab : ∀ p, p < L.length / 2 ^ m →
      subRoot hash base L m p = subRoot hash base (L ++ [v]) m p := by
    intro p hp
    refine (subRoot_append hash base L [v] m p ?_).symm
    calc (p + 1) * 2 ^ m ≤ (L.length / 2 ^ m) * 2 ^ m :=
          Nat.mul_le_mul_right _ (by omega)
    _ ≤ L.length := Nat.div_mul_le_self _ _
  by_cases hc : L.length / 2 ^ m < ly.length
  · rw [if_pos hc]
    have hlen' : ly.length = L.length / 2 ^ m + 1 := by omega
    constructor
    · rw [List.length_set, hlen', hceil]
    · intro p hp
      rw [hceil] at hp
      rcases Nat.lt_succ_iff_lt_or_eq.mp hp with hlt | rfl
      · rw [getD_set_ne ly _ p _ _ (by omega), hval p (by omega)]
        exact hstab p hlt
      · rw [getD_set_self ly _ _ _ hc]
  · rw [if_neg hc]
    have hlen' : ly.length = L.length / 2 ^ m := by omega
    constructor
    · rw [List.length_append, List.length_cons, List.length_nil, hlen', hceil]
    · intro p hp
      rw [hceil] at hp
      rcases Nat.lt_succ_iff_lt_or_eq.mp hp with hlt | rfl
      · rw [getD_append_lt ly _ p _ (by omega), hval p (by omega)]
        exact hstab p hlt
      · rw [← hlen', getD_snoc_len]

theorem addStep_even {F : Type} [Inhabited F] (hash : F → F → F) (pre : List F)
    (st : AddState F) (i : Nat) (hq : st.index % 2 = 0) :
    addStep hash pre st i =
      { hash_val := hash st.hash_val (pre.getD (i - 1) default)
        index := st.index / 2
        left_path := st.left_path.set (i - 1) st.hash_val
        layers := st.layers.set i
          (if st.index / 2 < (st.layers.getD i []).length then
            (st.layers.getD i []).set (st.index / 2)
              (hash st.hash_val (pre.getD (i - 1) default))
          else st.layers.getD i [] ++
            [hash st.hash_val (pre.getD (i - 1) default)]) } := by
  simp only [addStep]
  rw [if_pos hq]

theorem addStep_odd {F : Type} [Inhabited F] (hash : F → F → F) (pre : List F)
    (st : AddState F) (i : Nat) (hq : st.index % 2 = 1) :
    addStep hash pre st i =
      { hash_val := hash (st.left_path.getD (i - 1) default) st.hash_val
        index := st.index / 2
        left_path := st.left_path
        layers := st.layers.set i
          (if st.index / 2 < (st.layers.getD i []).length then
            (st.layers.getD i []).set (st.index / 2)
              (hash (st.left_path.getD (i - 1) default) st.hash_val)
          else st.layers.getD i [] ++
            [hash (st.left_path.getD (i - 1) default) st.hash_val]) } := by
  simp only [addStep]
  rw [if_neg (by omega)]

/-- One pass of the `add_leaf` loop preserves the loop invariant. -/
theorem loopInv_step {F : Type} [Inhabited F] (hash : F → F → F) (base : F)
    (height : Nat) (L : List F) (v : F) (i : Nat) (h1 : 1 ≤ i) (hi : i < height)
    (st : AddState F) (hP : LoopInv hash base height L v i st) :
    LoopInv hash base height L v (i + 1)
      (addStep hash (precomputed_hashes hash base height) st i) := by
  obtain ⟨j, rfl⟩ : ∃ j, i = j + 1 := ⟨i - 1, by omega⟩
  have h2j : (0 : Nat) < 2 ^ j := pow_pos (by norm_num) j
  have h2j1 : (0 : Nat) < 2 ^ (j + 1) := pow_pos (by norm_num) (j + 1)
  have hidx : st.index = L.length / 2 ^ j := by
    have h := hP.hidx
    simpa using h
  have hhv : st.hash_val = subRoot hash base (L ++ [v]) j (L.length / 2 ^ j) := by
    have h := hP.hhv
    simpa using h
  have hdd : L.length / 2 ^ j / 2 = L.length / 2 ^ (j + 1) := div_pow_succ _ j
  have hjh : j < height := by omega
  have hgetpre : (precomputed_hashes hash base height).getD j default =
      zeroIter hash base j := precomputed_hashes_getD hash base height j hjh
  have hB : st.index / 2 = L.length / 2 ^ (j + 1) := by rw [hidx, hdd]
  have hold := hP.hly_old (j + 1) (Nat.le_refl _) hi
  by_cases hq : st.index % 2 = 0
  · -- even index: combine with the zero hash, record the fringe
    have hqj : L.length / 2 ^ j % 2 = 0 := by rw [← hidx]; exact hq
    have hqeven : 2 * (L.length / 2 ^ (j + 1)) = L.length / 2 ^ j := by omega
    have hv' : hash st.hash_val
        ((precomputed_hashes hash base height).getD j default) =
        subRoot hash base (L ++ [v]) (j + 1) (L.length / 2 ^ (j + 1)) := by
      have hz : zeroIter hash base j =
          subRoot hash base (L ++ [v]) j (L.length / 2 ^ j + 1) := by
        refine (subRoot_of_le hash base (L ++ [v]) j (L.length / 2 ^ j + 1) ?_).symm
        simp only [List.length_append, List.length_cons, List.length_nil]
        have hlt := lt_div_succ_mul L.length (2 ^ j) h2j
        omega
      rw [hhv, hgetpre, hz, ← hqeven]
      rfl
    rw [addStep_even hash _ st (j + 1) hq]
    simp only [Nat.add_sub_cancel]
    rw [hv', hB, hhv, ← hqeven]
    have hupd := updateLayer_spec hash base L v (j + 1)
      (st.layers.getD (j + 1) []) hold.1 (fun p hp => hold.2 p (hold.1 ▸ hp))
    refine ⟨?_, ?_, ?_, ?_, ?_, ?_, ?_, ?_, ?_⟩
    · -- index
      show L.length / 2 ^ (j + 1) = L.length / 2 ^ (j + 1 + 1 - 1)
      simp
    · -- hash value
      show subRoot hash base (L ++ [v]) (j + 1) (L.length / 2 ^ (j + 1)) = _
      simp
    · -- left_path length
      show (st.left_path.set j _).length = height
      rw [List.length_set]
      exact hP.hlp_len
    · -- left_path, updated levels
      intro j' hj'
      rcases Nat.lt_succ_iff_lt_or_eq.mp (by omega : j' < j + 1) with hlt | rfl
      · show (st.left_path.set j _).getD j' default = _
        rw [getD_set_ne _ _ _ _ _ (by omega)]
        exact hP.hlp_new j' (by omega)
      · show (st.left_path.set j' _).getD j' default = _
        rw [getD_set_self _ _ _ _ (by rw [hP.hlp_len]; omega)]
    · -- left_path, untouched levels
      intro j' hj1 hj2
      show (st.left_path.set j _).getD j' default = _
      rw [getD_set_ne _ _ _ _ _ (by omega)]
      exact hP.hlp_old j' (by omega) hj2
    · -- left_path, top slot
      show (st.left_path.set j _).getD (height - 1) default = _
      rw [getD_set_ne _ _ _ _ _ (by omega)]
      exact hP.hlp_top
    · -- layers length
      show (st.layers.set (j + 1) _).length = height
      rw [List.length_set]
      exact hP.hly_len
    · -- layers, updated levels
      intro j' hj1 hj2
      rcases Nat.lt_succ_iff_lt_or_eq.mp (by omega : j' < j + 2) with hlt | rfl
      · show ((st.layers.set (j + 1) _).getD j' []).length = _ ∧ _
        rw [getD_set_ne _ _ _ _ _ (by omega)]
        exact hP.hly_new j' hlt hj2
      · show ((st.layers.set (j + 1) _).getD (j + 1) []).length = _ ∧ _
        rw [getD_set_self _ _ _ _ (by rw [hP.hly_len]; omega)]
        exact hupd
    · -- layers, untouched levels
      intro j' hj1 hj2
      show ((st.layers.set (j + 1) _).getD j' []).length = _ ∧ _
      rw [getD_set_ne _ _ _ _ _ (by omega)]
      exact hP.hly_old j' (by omega) hj2
  · -- odd index: combine with the recorded left sibling
    have hqj : L.length / 2 ^ j % 2 = 1 := by
      rw [← hidx]
      omega
    have hqodd : 2 * (L.length / 2 ^ (j + 1)) + 1 = L.length / 2 ^ j := by omega
    have hmod : L.length % 2 ^ (j + 1) ≠ 0 :=
      mod_pow_succ_ne_zero_of_div_odd _ j hqj
    have hpred : (L.length - 1) / 2 ^ (j + 1) = L.length / 2 ^ (j + 1) :=
      pred_div_eq_of_mod _ _ h2j1 hmod
    have hstab : subRoot hash base L j (2 * (L.length / 2 ^ (j + 1))) =
        subRoot hash base (L ++ [v]) j (2 * (L.length / 2 ^ (j + 1))) := by
      refine (subRoot_append hash base L [v] j _ ?_).symm
      rw [hqodd]
      exact Nat.div_mul_le_self _ _
    have hlpj : st.left_path.getD j default =
        subRoot hash base L j (2 * ((L.length - 1) / 2 ^ (j + 1))) :=
      hP.hlp_old j (by omega) (by omega)
    have hv' : hash (st.left_path.getD j default) st.hash_val =
        subRoot hash base (L ++ [v]) (j + 1) (L.length / 2 ^ (j + 1)) := by
      rw [hlpj, hpred, hstab, hhv, ← hqodd]
      rfl
    rw [addStep_odd hash _ st (j + 1) (by omega)]
    simp only [Nat.add_sub_cancel]
    rw [hv', hB]
    have hupd := updateLayer_spec hash base L v (j + 1)
      (st.layers.getD (j + 1) []) hold.1 (fun p hp => hold.2 p (hold.1 ▸ hp))
    refine ⟨?_, ?_, ?_, ?_, ?_, ?_, ?_, ?_, ?_⟩
    · -- index
      show L.length / 2 ^ (j + 1) = L.length / 2 ^ (j + 1 + 1 - 1)
      simp
    · -- hash value
      show subRoot hash base (L ++ [v]) (j + 1) (L.length / 2 ^ (j + 1)) = _
      simp
    · -- left_path length
      exact hP.hlp_len
    · -- left_path, updated levels
      intro j' hj'
      rcases Nat.lt_succ_iff_lt_or_eq.mp (by omega : j' < j + 1) with hlt | rfl
      · exact hP.hlp_new j' (by omega)
      · show st.left_path.getD j' default = _
        rw [hlpj, hpred]
        exact hstab
    · -- left_path, untouched levels
      intro j' hj1 hj2
      exact hP.hlp_old j' (by omega) hj2
    · -- left_path, top slot
      exact hP.hlp_top
    · -- layers length
      show (st.layers.set (j + 1) _).length = height
      rw [List.length_set]
      exact hP.hly_len
    · -- layers, updated levels
      intro j' hj1 hj2
      rcases Nat.lt_succ_iff_lt_or_eq.mp (by omega : j' < j + 2) with hlt | rfl
      · show ((st.layers.set (j + 1) _).getD j' []).length = _ ∧ _
        rw [getD_set_ne _ _ _ _ _ (by omega)]
        exact hP.hly_new j' hlt hj2
      · show ((st.layers.set (j + 1) _).getD (j + 1) []).length = _ ∧ _
        rw [getD_set_self _ _ _ _ (by rw [hP.hly_len]; omega)]
        exact hupd
    · -- layers, untouched levels
      intro j' hj1 hj2
      show ((st.layers.set (j + 1) _).getD j' []).length = _ ∧ _
      rw [getD_set_ne _ _ _ _ _ (by omega)]
      exact hP.hly_old j' (by omega) hj2

/-- The invariant holds for the freshly constructed accumulator. -/
theorem inv_new {F : Type} [Inhabited F] (hash : F → F → F) (base : F)
    (height : Nat) (hh : 1 ≤ height) :
    Inv hash base height [] (HybridMerkleTree.new hash base height) := by
  refine ⟨rfl, rfl, rfl, ?_, ?_, ?_, ?_, ?_, ?_⟩
  · show (List.replicate height ([] : List F)).length = height
    exact List.length_replicate _ _
  · intro i hi
    show ((List.replicate height ([] : List F)).getD i []).length = _
    rw [getD_replicate_of_lt _ _ _ _ hi]
    have h2 : (0 : Nat) < 2 ^ i := pow_pos (by norm_num) i
    show (0 : Nat) = (([] : List F).length + 2 ^ i - 1) / 2 ^ i
    simp only [List.length_nil, Nat.zero_add]
    exact (Nat.div_eq_of_lt (by omega)).symm
  · intro i hi p hp
    have h2 : (0 : Nat) < 2 ^ i := pow_pos (by norm_num) i
    simp only [List.length_nil, Nat.zero_add] at hp
    rw [Nat.div_eq_of_lt (by omega)] at hp
    omega
  · show (precomputed_hashes hash base height).length = height
    exact precomputed_hashes_length hash base height hh
  · intro j hj
    show (precomputed_hashes hash base height).getD j default = _
    rw [precomputed_hashes_getD hash base height j (by omega)]
    have h0 : 2 * ((([] : List F).length - 1) / 2 ^ (j + 1)) = 0 := by simp
    rw [h0]
    exact (subRoot_of_le hash base [] j 0 (by simp)).symm
  · show (precomputed_hashes hash base height).getD (height - 1) default = _
    rw [precomputed_hashes_getD hash base height (height - 1) (by omega)]
    exact (subRoot_of_le hash base [] (height - 1) 0 (by simp)).symm

/-- `add_leaf` preserves the invariant for in-capacity insertions. -/
theorem inv_add_leaf {F : Type} [Inhabited F] (hash : F → F → F) (base : F)
    (height : Nat) (hh : 1 ≤ height) (L : List F) (v : F)
    (hcap : L.length + 1 ≤ 2 ^ (height - 1))
    (t : HybridMerkleTree F) (ht : Inv hash base height L t) :
    Inv hash base height (L ++ [v]) (t.add_leaf hash v) := by
  have hlen0 : (t.layers.getD 0 []).length = L.length := by
    have := ht.hlayer_len 0 (by omega)
    simpa using this
  have hinit : LoopInv hash base height L v 1
      { hash_val := v, index := t.free_index, left_path := t.left_path
        layers := t.layers.set 0 ((t.layers.getD 0 []) ++ [v]) } := by
    refine ⟨?_, ?_, ?_, ?_, ?_, ?_, ?_, ?_, ?_⟩
    · show t.free_index = L.length / 2 ^ (1 - 1)
      rw [ht.hfree]
      simp
    · show v = subRoot hash base (L ++ [v]) (1 - 1) (L.length / 2 ^ (1 - 1))
      have h1 : L.length / 2 ^ (1 - 1) = L.length := by simp
      rw [h1]
      rw [subRoot_zero_getD hash base (L ++ [v]) L.length
        (by simp), getD_snoc_len]
    · exact ht.hlp_len
    · intro j hj
      omega
    · intro j hj1 hj2
      exact ht.hlp_val j hj2
    · exact ht.hroot
    · show (t.layers.set 0 _).length = height
      rw [List.length_set]
      exact ht.hlayers_len
    · intro j hj1 hj2
      have hj0 : j = 0 := by omega
      subst hj0
      show ((t.layers.set 0 _).getD 0 []).length = _ ∧ _
      rw [getD_set_self _ _ _ _ (by rw [ht.hlayers_len]; omega)]
      constructor
      · simp only [List.length_append, List.length_cons, List.length_nil,
          pow_zero, Nat.div_one, hlen0]
        omega
      · intro p hp
        simp only [pow_zero, Nat.div_one] at hp
        rcases Nat.lt_succ_iff_lt_or_eq.mp hp with hlt | rfl
        · rw [getD_append_lt _ _ _ _ (by omega : p < (t.layers.getD 0 []).length)]
          have hv := ht.hlayer_val 0 (by omega) p (by simpa using hlt)
          rw [hv]
          refine (subRoot_append hash base L [v] 0 p ?_).symm
          simpa using hlt
        · rw [← hlen0, getD_snoc_len]
          rw [subRoot_zero_getD hash base (L ++ [v]) (t.layers.getD 0 []).length
            (by rw [hlen0]; simp), hlen0, getD_snoc_len]
    · intro j hj1 hj2
      show ((t.layers.set 0 _).getD j []).length = _ ∧ _
      rw [getD_set_ne _ _ _ _ _ (by omega)]
      exact ⟨ht.hlayer_len j hj2, fun p hp => ht.hlayer_val j hj2 p hp⟩
  have hfold : LoopInv hash base height L v height
      ((List.range' 1 (height - 1)).foldl
        (addStep hash (precomputed_hashes hash base height))
        { hash_val := v, index := t.free_index, left_path := t.left_path
          layers := t.layers.set 0 ((t.layers.getD 0 []) ++ [v]) }) := by
    have h := foldl_range'_inv
      (addStep hash (precomputed_hashes hash base height))
      (LoopInv hash base height L v) (height - 1) 1 _ hinit
      (fun j u hj1 hj2 hp => loopInv_step hash base height L v j hj1 (by omega) u hp)
    have he : 1 + (height - 1) = height := by omega
    rwa [he] at h
  have hrw : t.add_leaf hash v =
      { t with
        free_index := t.free_index + 1
        layers := ((List.range' 1 (t.height - 1)).foldl
          (addStep hash t.precomputed)
          { hash_val := v, index := t.free_index, left_path := t.left_path
            layers := t.layers.set 0 ((t.layers.getD 0 []) ++ [v]) }).layers
        left_path := ((List.range' 1 (t.height - 1)).foldl
          (addStep hash t.precomputed)
          { hash_val := v, index := t.free_index, left_path := t.left_path
            layers := t.layers.set 0 ((t.layers.getD 0 []) ++ [v]) }).left_path.set
          (t.height - 1)
          ((List.range' 1 (t.height - 1)).foldl
            (addStep hash t.precomputed)
            { hash_val := v, index := t.free_index, left_path := t.left_path
              layers := t.layers.set 0 ((t.layers.getD 0 []) ++ [v]) }).hash_val } :=
    rfl
  rw [hrw, ht.hheight, ht.hpre]
  set stF := (List.range' 1 (height - 1)).foldl
    (addStep hash (precomputed_hashes hash base height))
    { hash_val := v, index := t.free_index, left_path := t.left_path
      layers := t.layers.set 0 ((t.layers.getD 0 []) ++ [v]) } with hstF
  refine ⟨rfl, rfl, ?_, ?_, ?_, ?_, ?_, ?_, ?_⟩
  · show t.free_index + 1 = (L ++ [v]).length
    rw [ht.hfree]
    simp
  · show stF.layers.length = height
    exact hfold.hly_len
  · intro i hi
    show (stF.layers.getD i []).length = _
    have h := (hfold.hly_new i (by omega) hi).1
    rw [h]
    simp only [List.length_append, List.length_cons, List.length_nil]
    have h2 : (0 : Nat) < 2 ^ i := pow_pos (by norm_num) i
    have he2 : L.length + 1 + 2 ^ i - 1 = L.length + 2 ^ i := by omega
    rw [he2]
  · intro i hi p hp
    have hlen := (hfold.hly_new i (by omega) hi).1
    refine (hfold.hly_new i (by omega) hi).2 p ?_
    simp only [List.length_append, List.length_cons, List.length_nil] at hp
    have he : L.length + 1 + 2 ^ i - 1 = L.length + 2 ^ i := by
      have h2 : (0 : Nat) < 2 ^ i := pow_pos (by norm_num) i
      omega
    rw [he] at hp
    exact hp
  · show (stF.left_path.set (height - 1) stF.hash_val).length = height
    rw [List.length_set]
    exact hfold.hlp_len
  · intro j hj
    show (stF.left_path.set (height - 1) stF.hash_val).getD j default = _
    rw [getD_set_ne _ _ _ _ _ (by omega)]
    have h := hfold.hlp_new j (by omega)
    rw [h]
    simp only [List.length_append, List.length_cons, List.length_nil,
      Nat.add_sub_cancel]
  · show (stF.left_path.set (height - 1) stF.hash_val).getD (height - 1)
      default = _
    rw [getD_set_self _ _ _ _ (by rw [hfold.hlp_len]; omega)]
    have h := hfold.hhv
    have hz : L.length / 2 ^ (height - 1) = 0 :=
      Nat.div_eq_of_lt (by omega)
    rw [h, hz]

/-- The invariant holds after any in-capacity sequence of insertions. -/
theorem inv_addAll {F : Type} [Inhabited F] (hash : F → F → F) (base : F)
    (height : Nat) (hh : 1 ≤ height) :
    ∀ L : List F, L.length ≤ 2 ^ (height - 1) →
      Inv hash base height L
        (addAll hash (HybridMerkleTree.new hash base height) L) := by
  intro L
  induction L using List.reverseRecOn with
  | nil => intro _; exact inv_new hash base height hh
  | append_singleton M v ih =>
      intro hlen
      simp only [List.length_append, List.length_cons, List.length_nil] at hlen
      have h2 : addAll hash (HybridMerkleTree.new hash base height) (M ++ [v]) =
          (addAll hash (HybridMerkleTree.new hash base height) M).add_leaf
            hash v := by
        simp [addAll, List.foldl_append]
      rw [h2]
      exact inv_add_leaf hash base height hh M v (by omega) _ (ih (by omega))

/-! ### Claim C7: layer lengths -/

/-- C7: initially and after every in-capacity sequence of `add_leaf` calls,
every level satisfies `layers[i].len() = ceil(free_index / 2^i)` (written
with the Nat identity `ceil(a/b) = (a + b - 1) / b`). -/
theorem C7_layer_lengths {F : Type} [Inhabited F] (hash : F → F → F) (base : F)
    (height : Nat) (L : List F) (hh : 1 ≤ height)
    (hcap : L.length ≤ 2 ^ (height - 1)) :
    ∀ i, i < height →
      ((addAll hash (HybridMerkleTree.new hash base height) L).layers.getD
        i []).length =
      ((addAll hash (HybridMerkleTree.new hash base height) L).free_index +
        2 ^ i - 1) / 2 ^ i := by
  intro i hi
  have hInv := inv_addAll hash base height hh L hcap
  rw [hInv.hfree]
  exact hInv.hlayer_len i hi

/-- Witness for C7: depth 2, one inserted leaf. -/
theorem C7_layer_lengths_witness :
    (1 ≤ 2 ∧ ([5].length : Nat) ≤ 2 ^ (2 - 1)) ∧
    ∀ i, i < 2 →
      ((addAll testHash (HybridMerkleTree.new testHash testBase 2)
        [5]).layers.getD i []).length =
      ((addAll testHash (HybridMerkleTree.new testHash testBase 2)
        [5]).free_index + 2 ^ i - 1) / 2 ^ i :=
  ⟨⟨by decide, by decide⟩,
    C7_layer_lengths testHash testBase 2 [5] (by decide) (by decide)⟩

/-! ### Claim C1: the incremental root equals the full-tree root -/

theorem getD_eq_getElem_of_lt {α : Type} (l : List α) (i : Nat) (d : α)
    (h : i < l.length) : l.getD i d = l[i] := by
  induction l generalizing i with
  | nil => simp at h
  | cons x xs ih =>
      cases i with
      | zero => simp [List.getD]
      | succ j => simpa [List.getD] using ih j (by simp at h; omega)

/-- The padded leaf list of the full-tree construction is the table of padded
slots. -/
theorem padded_eq_map_slot {F : Type} [Inhabited F] (base : F) (L : List F)
    (N : Nat) (hL : L.length ≤ N) :
    L ++ List.replicate (N - L.length) base =
      (List.range' 0 N).map (slot L base) := by
  refine List.ext_getElem ?_ ?_
  · simp only [List.length_append, List.length_replicate, List.length_map,
      List.length_range']
    omega
  · intro i h1 h2
    have hiN : i < N := by
      simp only [List.length_map, List.length_range'] at h2
      exact h2
    have hr : ((List.range' 0 N).map (slot L base))[i] = slot L base (0 + i) := by
      rw [List.getElem_map _, List.getElem_range'_1]
    rw [hr]
    by_cases hc : i < L.length
    · rw [List.getElem_append_left hc]
      show L[i] = slot L base (0 + i)
      unfold slot
      rw [if_pos (by omega)]
      rw [getD_eq_getElem_of_lt L _ _ (by omega)]
      simp
    · rw [List.getElem_append_right (by omega)]
      rw [List.getElem_replicate base]
      show base = slot L base (0 + i)
      unfold slot
      rw [if_neg (by omega)]

/-- Hashing adjacent pairs of a table of level-`e` values indexed from an
even start yields the table of the combined values. -/
theorem levelUp_map {F : Type} [Inhabited F] (hash : F → F → F) (f : Nat → F) :
    ∀ (m c : Nat),
      levelUp hash ((List.range' (2 * c) (2 * m)).map f) =
        (List.range' c m).map (fun p => hash (f (2 * p)) (f (2 * p + 1))) := by
  intro m
  induction m with
  | zero => intro c; rfl
  | succ k ih =>
      intro c
      have h1 : 2 * (k + 1) = 2 * k + 1 + 1 := by ring
      rw [h1]
      have h2 : List.range' (2 * c) (2 * k + 1 + 1) =
          2 * c :: (2 * c + 1) :: List.range' (2 * c + 2) (2 * k) := rfl
      rw [h2]
      simp only [List.map_cons]
      show hash (f (2 * c)) (f (2 * c + 1)) ::
          levelUp hash ((List.range' (2 * c + 2) (2 * k)).map f) = _
      have h3 : (2 : Nat) * c + 2 = 2 * (c + 1) := by ring
      rw [h3, ih (c + 1)]
      rfl

/-- Iterating `levelUp` over the full table of level-`e` subtree roots yields
the table of level-`e + k` subtree roots. -/
theorem reduceLevels_subRoot {F : Type} [Inhabited F] (hash : F → F → F)
    (base : F) (L : List F) :
    ∀ (k e m : Nat),
      reduceLevels hash k
        ((List.range' 0 (2 ^ k * m)).map (fun p => subRoot hash base L e p)) =
      (List.range' 0 m).map (fun p => subRoot hash base L (e + k) p) := by
  intro k
  induction k with
  | zero =>
      intro e m
      show (List.range' 0 (2 ^ 0 * m)).map _ = _
      rw [pow_zero, one_mul]
      simp
  | succ k' ih =>
      intro e m
      show reduceLevels hash k'
        (levelUp hash ((List.range' 0 (2 ^ (k' + 1) * m)).map _)) = _
      have h1 : 2 ^ (k' + 1) * m = 2 * (2 ^ k' * m) := by ring
      rw [h1]
      have h2 := levelUp_map hash (fun p => subRoot hash base L e p) (2 ^ k' * m) 0
      rw [show (2 : Nat) * 0 = 0 from rfl] at h2
      rw [h2]
      have h3 : (fun p => hash (subRoot hash base L e (2 * p))
          (subRoot hash base L e (2 * p + 1))) =
          (fun p => subRoot hash base L (e + 1) p) := by
        funext p
        rfl
      rw [h3, ih (e + 1) m]
      have h4 : e + 1 + k' = e + (k' + 1) := by omega
      rw [h4]

/-- The spec's independent full-tree construction computes precisely the
padded subtree root at the top level. -/
theorem specFullRoot_eq_subRoot {F : Type} [Inhabited F] (hash : F → F → F)
    (base : F) (height : Nat) (L : List F)
    (hcap : L.length ≤ 2 ^ (height - 1)) :
    specFullRoot hash base height L =
      subRoot hash base L (height - 1) 0 := by
  unfold specFullRoot
  rw [padded_eq_map_slot base L (2 ^ (height - 1)) hcap]
  have hf : slot L base = fun p => subRoot hash base L 0 p := by
    funext p
    rfl
  rw [hf]
  have h1 : (2 : Nat) ^ (height - 1) = 2 ^ (height - 1) * 1 := by ring
  rw [h1]
  show (reduceLevels hash (height - 1)
    ((List.range' 0 (2 ^ (height - 1) * 1)).map
      (fun p => subRoot hash base L 0 p))).headD default = _
  rw [reduceLevels_subRoot hash base L (height - 1) 0 1]
  show subRoot hash base L (0 + (height - 1)) 0 = _
  rw [Nat.zero_add]

/-- C1: for every depth and every in-capacity leaf sequence inserted in
order, the accumulator's root equals the root of the independent full
binary-tree construction padded with `zero[0]`. -/
theorem C1_incremental_root_eq_full {F : Type} [Inhabited F]
    (hash : F → F → F) (base : F) (height : Nat) (L : List F)
    (hh : 1 ≤ height) (hcap : L.length ≤ 2 ^ (height - 1)) :
    (addAll hash (HybridMerkleTree.new hash base height) L).root =
      specFullRoot hash base height L := by
  have hInv := inv_addAll hash base height hh L hcap
  have hr : (addAll hash (HybridMerkleTree.new hash base height) L).root =
      subRoot hash base L (height - 1) 0 := by
    show (addAll hash (HybridMerkleTree.new hash base height)
      L).left_path.getD
        ((addAll hash (HybridMerkleTree.new hash base height) L).height - 1)
        default = _
    rw [hInv.hheight]
    exact hInv.hroot
  rw [hr, specFullRoot_eq_subRoot hash base height L hcap]

/-- Witness for C1: depth 2, a single leaf. -/
theorem C1_incremental_root_eq_full_witness :
    (1 ≤ 2 ∧ ([5].length : Nat) ≤ 2 ^ (2 - 1)) ∧
    (addAll testHash (HybridMerkleTree.new testHash testBase 2) [5]).root =
      specFullRoot testHash testBase 2 [5] :=
  ⟨⟨by decide, by decide⟩,
    C1_incremental_root_eq_full testHash testBase 2 [5] (by decide) (by decide)⟩

/-! ### Claim C3: behaviour at capacity -/

/-- C3 (evaluation at the failing input): `add_leaf` performs no capacity
check.  For depth 3 the capacity is `2^(3-1) = 4`; after four insertions
`free_index` equals the capacity, yet a fifth `add_leaf` is silently accepted
and drives `free_index` to `capacity + 1` instead of failing with
`CapacityExceeded`. -/
theorem C3_add_leaf_beyond_capacity :
    (addAll testHash (HybridMerkleTree.new testHash testBase 3)
        [1, 2, 3, 4]).free_index = 2 ^ (3 - 1) ∧
    ((addAll testHash (HybridMerkleTree.new testHash testBase 3)
        [1, 2, 3, 4]).add_leaf testHash 5).free_index = 2 ^ (3 - 1) + 1 := by
  constructor <;> rfl

/-! ### Claim C4: behaviour of `path` on a missing leaf -/

/-- C4 (evaluation at the failing input): `path` on an index that has not been
inserted aborts with the unchecked `panic!("Leaf does not exist!")` rather
than returning a recoverable `LeafNotFound` error value; for an index below
`layers[0].len()` it succeeds and returns the proof. -/
theorem C4_path_panics_on_missing_leaf :
    (HybridMerkleTree.new testHash testBase 3).path 0 =
      RustOutcome.panicked "Leaf does not exist!" ∧
    ((HybridMerkleTree.new testHash testBase 3).add_leaf testHash 42).path 0 =
      RustOutcome.ok ([7, 40], [false, false]) := by
  constructor <;> rfl

/-! ### The `path` loop -/

/-- The `path` loop produces exactly the sibling table `pathSib` together
with the binary digits of the queried index. -/
theorem path_fold {F : Type} [Inhabited F] (hash : F → F → F) (base : F)
    (height : Nat) (L : List F) (i0 : Nat) (hi0 : i0 < L.length)
    (t : HybridMerkleTree F) (ht : Inv hash base height L t) :
    ∀ k, k ≤ height - 1 →
      (List.range k).foldl (pathStep t.precomputed t.layers) ([], [], i0) =
        ((List.range k).map (pathSib hash base L i0),
         (List.range k).map (fun u => decide (i0 / 2 ^ u % 2 = 1)),
         i0 / 2 ^ k) := by
  intro k
  induction k with
  | zero =>
      intro _
      simp [pow_zero]
  | succ m ih =>
      intro hk
      have hm : m < height := by omega
      have h2m : (0 : Nat) < 2 ^ m := pow_pos (by norm_num) m
      have hn1 : 1 ≤ L.length := by omega
      have hceil : (L.length + 2 ^ m - 1) / 2 ^ m = (L.length - 1) / 2 ^ m + 1 :=
        ceil_div_succ _ _ h2m hn1
      have hle : i0 / 2 ^ m ≤ (L.length - 1) / 2 ^ m :=
        Nat.div_le_div_right (by omega)
      have hlen := ht.hlayer_len m hm
      have hstep2 : i0 / 2 ^ m / 2 = i0 / 2 ^ (m + 1) := div_pow_succ _ _
      rw [List.range_succ, List.foldl_append, ih (by omega), List.foldl_cons,
        List.foldl_nil, List.map_append, List.map_append, List.map_cons,
        List.map_nil, List.map_cons, List.map_nil]
      simp only [pathStep]
      by_cases hodd : i0 / 2 ^ m % 2 = 1
      · rw [if_pos hodd]
        have hbound : i0 / 2 ^ m - 1 < (L.length + 2 ^ m - 1) / 2 ^ m := by
          rw [hceil]
          exact lt_of_le_of_lt (Nat.sub_le _ _) (Nat.lt_succ_of_le hle)
        have hval := ht.hlayer_val m hm (i0 / 2 ^ m - 1) hbound
        rw [hval, hstep2]
        have hps : pathSib hash base L i0 m =
            subRoot hash base L m (i0 / 2 ^ m - 1) := by
          unfold pathSib
          rw [if_pos hodd]
        rw [hps]
      · rw [if_neg hodd]
        have hps : pathSib hash base L i0 m =
            subRoot hash base L m (i0 / 2 ^ m + 1) := by
          unfold pathSib
          rw [if_neg hodd]
        by_cases hlt : i0 / 2 ^ m + 1 < (t.layers.getD m []).length
        · rw [if_pos hlt]
          have hval := ht.hlayer_val m hm (i0 / 2 ^ m + 1)
            (by rw [hlen] at hlt; exact hlt)
          rw [hval, hstep2, hps]
        · rw [if_neg hlt]
          have hbig : L.length ≤ (i0 / 2 ^ m + 1) * 2 ^ m := by
            rw [hlen, hceil] at hlt
            have hge : (L.length - 1) / 2 ^ m ≤ i0 / 2 ^ m := by omega
            have hlt2 := lt_div_succ_mul (L.length - 1) (2 ^ m) h2m
            have hmul : ((L.length - 1) / 2 ^ m + 1) * 2 ^ m ≤
                (i0 / 2 ^ m + 1) * 2 ^ m :=
              Nat.mul_le_mul_right _ (by omega)
            exact Nat.le_of_pred_lt (lt_of_lt_of_le hlt2 hmul)
          have hz : subRoot hash base L m (i0 / 2 ^ m + 1) =
              zeroIter hash base m := subRoot_of_le hash base L m _ hbig
          rw [ht.hpre, precomputed_hashes_getD hash base height m hm, hstep2,
            hps, hz]

/-- Full characterisation of `path` on an inserted index. -/
theorem path_spec {F : Type} [Inhabited F] (hash : F → F → F) (base : F)
    (height : Nat) (hh : 1 ≤ height) (L : List F) (i0 : Nat)
    (hi0 : i0 < L.length) (t : HybridMerkleTree F)
    (ht : Inv hash base height L t) :
    t.path i0 = RustOutcome.ok
      ((List.range (height - 1)).map (pathSib hash base L i0),
       (List.range (height - 1)).map (fun u => decide (i0 / 2 ^ u % 2 = 1))) := by
  have hlen0 : (t.layers.getD 0 []).length = L.length := by
    have h := ht.hlayer_len 0 (by omega)
    simpa using h
  unfold HybridMerkleTree.path
  rw [if_neg (by rw [hlen0]; omega), ht.hheight]
  show RustOutcome.ok
    (((List.range (height - 1)).foldl (pathStep t.precomputed t.layers)
        ([], [], i0)).1,
     ((List.range (height - 1)).foldl (pathStep t.precomputed t.layers)
        ([], [], i0)).2.1) = _
  rw [path_fold hash base height L i0 hi0 t ht (height - 1) (Nat.le_refl _)]

/-- Recomputing from the sibling table reproduces the padded subtree roots
along the leaf-to-root path. -/
theorem compute_on_sibs {F : Type} [Inhabited F] (hash : F → F → F) (base : F)
    (L : List F) (i0 : Nat) (hi0 : i0 < L.length) :
    ∀ k, compute_merkle_root_rust hash (L.getD i0 default) i0
        ((List.range k).map (pathSib hash base L i0)) =
      subRoot hash base L k (i0 / 2 ^ k) := by
  intro k
  induction k with
  | zero =>
      show L.getD i0 default = subRoot hash base L 0 (i0 / 2 ^ 0)
      rw [pow_zero, Nat.div_one, subRoot_zero_getD hash base L i0 hi0]
  | succ m ih =>
      rw [List.range_succ, List.map_append, compute_merkle_root_rust_append]
      have hl : ((List.range m).map (pathSib hash base L i0)).length = m := by
        simp
      rw [hl, ih]
      simp only [List.map_cons, List.map_nil]
      show (if i0 / 2 ^ m % 2 = 1
          then hash (pathSib hash base L i0 m) (subRoot hash base L m (i0 / 2 ^ m))
          else hash (subRoot hash base L m (i0 / 2 ^ m)) (pathSib hash base L i0 m))
          = subRoot hash base L (m + 1) (i0 / 2 ^ (m + 1))
      have hdd2 : i0 / 2 ^ m / 2 = i0 / 2 ^ (m + 1) := div_pow_succ _ _
      by_cases hodd : i0 / 2 ^ m % 2 = 1
      · rw [if_pos hodd]
        have hps : pathSib hash base L i0 m =
            subRoot hash base L m (i0 / 2 ^ m - 1) := by
          unfold pathSib
          rw [if_pos hodd]
        have h1 : 2 * (i0 / 2 ^ (m + 1)) + 1 = i0 / 2 ^ m := by omega
        rw [hps, ← h1]
        have h2 : 2 * (i0 / 2 ^ (m + 1)) + 1 - 1 = 2 * (i0 / 2 ^ (m + 1)) := by
          omega
        rw [h2]
        rfl
      · rw [if_neg hodd]
        have hps : pathSib hash base L i0 m =
            subRoot hash base L m (i0 / 2 ^ m + 1) := by
          unfold pathSib
          rw [if_neg hodd]
        have h1 : 2 * (i0 / 2 ^ (m + 1)) = i0 / 2 ^ m := by omega
        rw [hps, ← h1]
        rfl

/-! ### Claim C2: proofs verify against the root -/

/-- C2: for every depth, every in-capacity insertion sequence, and every
inserted index, recomputing the root from the leaf value, its index and the
sibling path returned by `path` yields the accumulator's current root. -/
theorem C2_proof_roundtrip {F : Type} [Inhabited F] (hash : F → F → F)
    (base : F) (height : Nat) (L : List F) (i0 : Nat) (hh : 1 ≤ height)
    (hcap : L.length ≤ 2 ^ (height - 1)) (hi0 : i0 < L.length) :
    ∃ elems bits,
      (addAll hash (HybridMerkleTree.new hash base height) L).path i0 =
        RustOutcome.ok (elems, bits) ∧
      compute_merkle_root_rust hash (L.getD i0 default) i0 elems =
        (addAll hash (HybridMerkleTree.new hash base height) L).root := by
  have hInv := inv_addAll hash base height hh L hcap
  refine ⟨_, _, path_spec hash base height hh L i0 hi0 _ hInv, ?_⟩
  rw [compute_on_sibs hash base L i0 hi0 (height - 1)]
  have hz : i0 / 2 ^ (height - 1) = 0 := Nat.div_eq_of_lt (by omega)
  rw [hz]
  show subRoot hash base L (height - 1) 0 =
    (addAll hash (HybridMerkleTree.new hash base height) L).left_path.getD
      ((addAll hash (HybridMerkleTree.new hash base height) L).height - 1)
      default
  rw [hInv.hheight]
  exact hInv.hroot.symm

/-- Witness for C2: depth 2, leaves `[3, 4]`, index 1. -/
theorem C2_proof_roundtrip_witness :
    (1 ≤ 2 ∧ ([3, 4] : List Nat).length ≤ 2 ^ (2 - 1) ∧
      1 < ([3, 4] : List Nat).length) ∧
    ∃ elems bits,
      (addAll testHash (HybridMerkleTree.new testHash testBase 2)
        [3, 4]).path 1 = RustOutcome.ok (elems, bits) ∧
      compute_merkle_root_rust testHash (([3, 4] : List Nat).getD 1 default)
        1 elems =
        (addAll testHash (HybridMerkleTree.new testHash testBase 2) [3, 4]).root :=
  ⟨⟨by decide, by decide, by decide⟩,
    C2_proof_roundtrip testHash testBase 2 [3, 4] 1 (by decide) (by decide)
      (by decide)⟩

/-! ### Claim C9: side bits are the binary digits of the index -/

/-- C9: for every inserted index, the side-bit vector returned by `path` has
length `height - 1` and its bit at level `j` is set exactly when
`floor(index / 2^j) mod 2 = 1`, i.e. when bit `j` of the index is 1. -/
theorem C9_path_side_bits {F : Type} [Inhabited F] (hash : F → F → F)
    (base : F) (height : Nat) (L : List F) (i0 : Nat) (hh : 1 ≤ height)
    (hcap : L.length ≤ 2 ^ (height - 1)) (hi0 : i0 < L.length) :
    ∃ elems bits,
      (addAll hash (HybridMerkleTree.new hash base height) L).path i0 =
        RustOutcome.ok (elems, bits) ∧
      bits.length = height - 1 ∧
      ∀ j, j < height - 1 → (bits.getD j false = true ↔ i0 / 2 ^ j % 2 = 1) := by
  have hInv := inv_addAll hash base height hh L hcap
  refine ⟨_, _, path_spec hash base height hh L i0 hi0 _ hInv, ?_, ?_⟩
  · simp
  · intro j hj
    have hg : ((List.range (height - 1)).map
        (fun u => decide (i0 / 2 ^ u % 2 = 1))).getD j false =
        decide (i0 / 2 ^ j % 2 = 1) := by
      rw [getD_eq_getElem_of_lt _ _ _ (by simp [hj])]
      rw [List.getElem_map _]
      rw [List.getElem_range]
    rw [hg]
    simp

/-- Witness for C9: depth 3, leaves `[1, 2, 3]`, index 2 (binary `10`). -/
theorem C9_path_side_bits_witness :
    (1 ≤ 3 ∧ ([1, 2, 3] : List Nat).length ≤ 2 ^ (3 - 1) ∧
      2 < ([1, 2, 3] : List Nat).length) ∧
    ∃ elems bits,
      (addAll testHash (HybridMerkleTree.new testHash testBase 3)
        [1, 2, 3]).path 2 = RustOutcome.ok (elems, bits) ∧
      bits.length = 3 - 1 ∧
      ∀ j, j < 3 - 1 → (bits.getD j false = true ↔ 2 / 2 ^ j % 2 = 1) :=
  ⟨⟨by decide, by decide, by decide⟩,
    C9_path_side_bits testHash testBase 3 [1, 2, 3] 2 (by decide) (by decide)
      (by decide)⟩

end NoirMerkle
